import Mathlib

/-!
Verification of `expenses.py`, a GnuCash expense-report script.

The script walks an account tree collecting `(date, num, split)` triples
(`read_account_transactions`), deduplicates and sorts them
(`sorted(set(data))`), converts each split's value to the local currency via
the recorded share price (`val.div(price, 1000, 0).neg()`), and aggregates
expenses per category / leaf account in two passes (a text transcript pass
that sums exact values and quantizes at display time, and a document pass
that quantizes each entry to 2 decimal places before summing).

Calendar dates are modelled as epoch day counts (`Nat`); `datetime.date`
ordering is chronological, which the day count preserves.  Python `Decimal`
arithmetic is modelled by exact `ℚ` arithmetic: at the scales the script
produces (numerators over powers-of-ten denominators well within 28
significant digits) `Decimal` division and addition are exact.
-/

namespace Expenses

/-- GnuCash rational numeric (`gnc_numeric`): integer numerator over an
integer denominator.  Real GnuCash values always carry a positive
denominator; theorems that need this take it as a hypothesis. -/
structure GncNumeric where
  num : Int
  denom : Int
deriving DecidableEq, Repr

/-- The exact rational value of a GnuCash numeric. -/
def ratOf (x : GncNumeric) : ℚ := (x.num : ℚ) / (x.denom : ℚ)

/-- Round a rational to the nearest integer, ties to the even neighbour
(banker's / unbiased rounding, `GNC_HOW_RND_ROUND`, and the default
`ROUND_HALF_EVEN` of Python `Decimal`). -/
def bankerRound (q : ℚ) : ℤ :=
  let f := ⌊q⌋
  let r := q - (f : ℚ)
  if r < 1/2 then f
  else if 1/2 < r then f + 1
  else if f % 2 = 0 then f else f + 1

/-- Modelled from the spec: the GnuCash engine (an external collaborator,
not part of this source tree) divides two numerics and converts the result
to the fixed denominator `d` using banker's-unbiased rounding; the script
calls it as `val.div(price, 1000, 0)`. -/
def GncNumeric.div (a b : GncNumeric) (d : Int) : GncNumeric :=
  ⟨bankerRound (ratOf a / ratOf b * (d : ℚ)), d⟩

/-- `gnc_numeric` negation (`.neg()`). -/
def GncNumeric.neg (a : GncNumeric) : GncNumeric := ⟨-a.num, a.denom⟩

/-- Python `Decimal.quantize(TWOPLACES)` under the default half-even
rounding, on the exact rational value. -/
def quantize2 (q : ℚ) : ℚ := (bankerRound (q * 100) : ℚ) / 100

/-- Python `Decimal.quantize(SIXPLACES)` under the default half-even
rounding, on the exact rational value. -/
def quantize6 (q : ℚ) : ℚ := (bankerRound (q * 1000000) : ℚ) / 1000000

/-- `q` is a whole number of pennies (an exact 2-decimal value). -/
def IsPenny (q : ℚ) : Prop := ∃ z : ℤ, q = (z : ℚ) / 100

/-- The parent transaction data a split carries (`split.parent`). -/
structure Transaction where
  date : Nat
  number : String
  description : String
deriving DecidableEq, Repr

/-- The data of the counter-leg returned by `split.GetOtherSplit()`:
its owning account's full dotted name, its currency, and its raw value. -/
structure OtherLeg where
  fullName : String
  currency : String
  value : GncNumeric
deriving DecidableEq, Repr

/-- A transaction split.  `id` models Python object identity (two wrapper
objects for the same physical split share it).  `otherSplit` is `some` when
the parent transaction has exactly two legs (`GetOtherSplit`). -/
structure Split where
  id : Nat
  value : GncNumeric
  sharePrice : GncNumeric
  accountName : String
  currency : String
  parent : Transaction
  otherSplit : Option OtherLeg
deriving DecidableEq, Repr

/-- An account: full dotted name, its own splits and its child accounts. -/
inductive Account where
  | node : String → List Split → List Account → Account

def Account.name : Account → String
  | .node n _ _ => n

def Account.splits : Account → List Split
  | .node _ s _ => s

def Account.children : Account → List Account
  | .node _ _ c => c

/-- The working record `(date, number, split)` built by the traversal. -/
abbrev Triple := Nat × String × Split

/-- The triple the script builds for a split:
`(date.fromtimestamp(split.parent.GetDate()), split.parent.GetNum(), split)`. -/
def tripleOf (s : Split) : Triple := (s.parent.date, s.parent.number, s)

mutual

/-- `read_account_transactions`: the account's own splits tagged with their
parent transaction's date and number, followed by the recursively collected
splits of each child account. -/
def read_account_transactions : Account → List Triple
  | .node _ splits children =>
      splits.map tripleOf ++ readChildren children

/-- The `for child in account.get_children()` loop of
`read_account_transactions`. -/
def readChildren : List Account → List Triple
  | [] => []
  | a :: rest => read_account_transactions a ++ readChildren rest

end

mutual

/-- An account together with all of its descendants. -/
def subAccounts : Account → List Account
  | .node n s c => .node n s c :: subAccountsList c

def subAccountsList : List Account → List Account
  | [] => []
  | a :: rest => subAccounts a ++ subAccountsList rest

end

/-- Comparison used by Python's `sorted` on the `(date, num, split)` tuples:
lexicographic on date, then transaction number (Python compares strings by
code points, i.e. lexicographically on the character list), then split
identity (CPython orders otherwise-incomparable objects by identity). -/
def tripleLE (t u : Triple) : Prop :=
  t.1 < u.1 ∨ (t.1 = u.1 ∧
    (t.2.1.data < u.2.1.data ∨ (t.2.1.data = u.2.1.data ∧ t.2.2.id ≤ u.2.2.id)))

instance : DecidableRel tripleLE := fun t u => by
  unfold tripleLE; infer_instance

instance : IsTotal Triple tripleLE := by
  constructor
  intro t u
  rcases Nat.lt_trichotomy t.1 u.1 with h | h | h
  · exact Or.inl (Or.inl h)
  · rcases lt_trichotomy t.2.1.data u.2.1.data with h2 | h2 | h2
    · exact Or.inl (Or.inr ⟨h, Or.inl h2⟩)
    · rcases Nat.le_total t.2.2.id u.2.2.id with h3 | h3
      · exact Or.inl (Or.inr ⟨h, Or.inr ⟨h2, h3⟩⟩)
      · exact Or.inr (Or.inr ⟨h.symm, Or.inr ⟨h2.symm, h3⟩⟩)
    · exact Or.inr (Or.inr ⟨h.symm, Or.inl h2⟩)
  · exact Or.inr (Or.inl h)

instance : IsTrans Triple tripleLE := by
  constructor
  intro a b c hab hbc
  rcases hab with h1 | ⟨e1, h1⟩
  · rcases hbc with h2 | ⟨e2, _⟩
    · exact Or.inl (h1.trans h2)
    · exact Or.inl (e2 ▸ h1)
  · rcases hbc with h2 | ⟨e2, h2⟩
    · exact Or.inl (e1 ▸ h2)
    · refine Or.inr ⟨e1.trans e2, ?_⟩
      rcases h1 with h1 | ⟨f1, h1⟩
      · rcases h2 with h2 | ⟨f2, _⟩
        · exact Or.inl (h1.trans h2)
        · exact Or.inl (f2 ▸ h1)
      · rcases h2 with h2 | ⟨f2, h2⟩
        · exact Or.inl (f1 ▸ h2)
        · exact Or.inr ⟨f1.trans f2, h1.trans h2⟩

/-- `sorted(set(data))`: drop duplicate triples, then sort.  Python's `set`
iterates in an arbitrary order; since the sort is by a total comparison this
composite is order-canonical whenever split identity is injective on the
data, which the determinism theorems make explicit. -/
def dedupSorted (l : List Triple) : List Triple :=
  List.insertionSort tripleLE l.dedup

/-- `val.div(price, 1000, 0).neg()`: the account-local amount of a split. -/
def localAmount (s : Split) : GncNumeric :=
  (s.value.div s.sharePrice 1000).neg

/-- The foreign amount of a split: the raw recorded value of the other
split when the transaction has exactly two legs, absent otherwise. -/
def foreignAmountOf (s : Split) : Option GncNumeric :=
  s.otherSplit.map OtherLeg.value

/-- Python `str.split('.')` over the character list (splits at every dot,
keeping empty segments, exactly like `'a..b'.split('.')`). -/
def splitDotAux : List Char → List Char → List (List Char)
  | [], acc => [acc.reverse]
  | c :: cs, acc =>
      if c = '.' then acc.reverse :: splitDotAux cs []
      else splitDotAux cs (c :: acc)

/-- `other_name.split('.')`: the dotted path segments of a full account
name. -/
def pathSegments (s : String) : List String :=
  (splitDotAux s.data []).map fun l => ⟨l⟩

/-- The fixed currency symbol literals of the script. -/
def FOREIGN : String := "US$"

def LOCAL : String := "$"

/-- The displayed exchange rate of a split in the document path:
`(Decimal(price.denom()) / Decimal(price.num())).quantize(SIXPLACES)` when
the split has an other split, overridden to `1` in the `else` branch. -/
def displayRate (s : Split) : ℚ :=
  if s.otherSplit.isSome then
    quantize6 ((s.sharePrice.denom : ℚ) / (s.sharePrice.num : ℚ))
  else 1

/-- One record of the plain-text transcript: the `date - description` head
line, the counterparty sub-line (`none` renders the placeholder `-`), and
the split's own sub-line carrying its local amount.  Each sub-line is
(account full name, currency symbol, amount). -/
structure TranscriptEntry where
  date : Nat
  description : String
  counterLine : Option (String × String × GncNumeric)
  ownLine : String × String × GncNumeric
deriving DecidableEq, Repr

/-- An entry appended to `expenses[cat]`: leaf account name, local amount,
foreign amount. -/
abbrev ExpenseItem := String × GncNumeric × GncNumeric

/-- The body of the transcript loop for one triple: print the two (or
placeholder) sub-lines and, when an other split exists, append
`(other_name.split('.')[1], other_name.split('.')[-1], local, foreign)` to
the expenses map.  Indexing a too-short path raises `IndexError`, modelled
as `.error`. -/
def step (t : Triple) : Except Unit (TranscriptEntry × Option (String × ExpenseItem)) :=
  let s := t.2.2
  match s.otherSplit with
  | some o =>
      match (pathSegments o.fullName)[1]? with
      | some cat =>
          match (pathSegments o.fullName).getLast? with
          | some acc =>
              .ok (⟨t.1, s.parent.description,
                    some (o.fullName, o.currency, o.value),
                    (s.accountName, s.currency, localAmount s)⟩,
                   some (cat, acc, localAmount s, o.value))
          | none => .error ()
      | none => .error ()
  | none =>
      .ok (⟨t.1, s.parent.description, none,
            (s.accountName, s.currency, localAmount s)⟩, none)

/-- The full transcript loop over the deduplicated data, producing the
transcript records and the `expenses` entries in data order. -/
def processAll : List Triple → Except Unit (List TranscriptEntry × List (String × ExpenseItem))
  | [] => .ok ([], [])
  | t :: ts =>
      match step t with
      | .error e => .error e
      | .ok (entry, item) =>
          match processAll ts with
          | .error e => .error e
          | .ok (es, items) =>
              .ok (entry :: es,
                   match item with
                   | some i => i :: items
                   | none => items)

/-- Python string `≤` (code-point lexicographic), used by `sorted` on the
group names. -/
def strLE (a b : String) : Prop := a.data ≤ b.data

instance : DecidableRel strLE := fun a b => by
  unfold strLE; infer_instance

/-- `sorted(local_group)`: the distinct leaf-account names of a category's
entries, in sorted order. -/
def groupNames (v : List ExpenseItem) : List String :=
  List.insertionSort strLE (v.map Prod.fst).dedup

/-- Text path, `local_group[name]`: the exact `Decimal` sum
`Σ Decimal(local.num()) / Decimal(local.denom())` over the entries of one
leaf account (no quantization during accumulation). -/
def localGroupT (v : List ExpenseItem) (name : String) : ℚ :=
  ((v.filter fun e => e.1 == name).map fun e => ratOf e.2.1).sum

/-- Text path, `foreign_group[name]`. -/
def foreignGroupT (v : List ExpenseItem) (name : String) : ℚ :=
  ((v.filter fun e => e.1 == name).map fun e => ratOf e.2.2).sum

/-- Text path, `local_sum`: the category total accumulated over the sorted
group names. -/
def localSumT (v : List ExpenseItem) : ℚ :=
  ((groupNames v).map (localGroupT v)).sum

/-- Text path, `foreign_sum`. -/
def foreignSumT (v : List ExpenseItem) : ℚ :=
  ((groupNames v).map (foreignGroupT v)).sum

/-- Document path, `local_group[name]`: each entry is quantized to two
places before being accumulated (`local.quantize(TWOPLACES)`). -/
def localGroupD (v : List ExpenseItem) (name : String) : ℚ :=
  ((v.filter fun e => e.1 == name).map fun e => quantize2 (ratOf e.2.1)).sum

/-- Document path, `foreign_group[name]`. -/
def foreignGroupD (v : List ExpenseItem) (name : String) : ℚ :=
  ((v.filter fun e => e.1 == name).map fun e => quantize2 (ratOf e.2.2)).sum

/-- Document path, `local_sum`: the exact sum of the per-leaf accumulated
(2-decimal) subtotals, in sorted name order. -/
def localSumD (v : List ExpenseItem) : ℚ :=
  ((groupNames v).map (localGroupD v)).sum

/-- The per-category lists of the `expenses` map, with their category keys. -/
abbrev ExpenseMap := List (String × List ExpenseItem)

/-- Text path, `expense_local`: the grand total accumulated as
`expense_local += local_sum` over the categories. -/
def expenseLocalT (ex : ExpenseMap) : ℚ :=
  (ex.map fun c => localSumT c.2).sum

/-- Text path, `expense_foreign`. -/
def expenseForeignT (ex : ExpenseMap) : ℚ :=
  (ex.map fun c => foreignSumT c.2).sum

/-- A rendered foreign-amount table cell of the document path. -/
inductive Cell where
  | na
  | amount (q : ℚ)
deriving DecidableEq

/-- The document table's foreign cell for one leaf account:
`(FOREIGN + str(foreign_val)) if foreign_val != local_val else 'N/A'`. -/
def docForeignCell (v : List ExpenseItem) (name : String) : Cell :=
  if foreignGroupD v name ≠ localGroupD v name then
    .amount (foreignGroupD v name)
  else .na

/-- Observable resource events of the read phase. -/
inductive Event where
  | sessionOpen
  | lookup (name : String)
  | sessionEnd
  | aggregate
deriving DecidableEq, Repr

/-- `acc.lookup_by_name(sub)`, at the external Ledger Accessor boundary:
resolve one path segment to a child account, failing when absent. -/
def lookupByName (a : Account) (s : String) : Option Account :=
  a.children.find? fun c => c.name == s

/-- The inner `for sub in name.split('.')` loop: resolve a dotted path one
segment at a time, short-circuiting on the first failed lookup (in Python
the failed lookup raises on the next attribute access). -/
def resolveEv (a : Account) : List String → List Event × Option Account
  | [] => ([], some a)
  | s :: rest =>
      match lookupByName a s with
      | some c =>
          (.lookup s :: (resolveEv c rest).1, (resolveEv c rest).2)
      | none => ([.lookup s], none)

/-- The `try` body: resolve each requested account and extend `data` with
its recursively collected triples; a failure aborts the loop. -/
def collectEv (root : Account) : List String → List Event × Option (List Triple)
  | [] => ([], some [])
  | n :: ns =>
      match (resolveEv root (pathSegments n)).2 with
      | some a =>
          ((resolveEv root (pathSegments n)).1 ++ (collectEv root ns).1,
           (collectEv root ns).2.map fun rest =>
             read_account_transactions a ++ rest)
      | none => ((resolveEv root (pathSegments n)).1, none)

/-- The whole read phase as an event trace: the session is opened, the
`try` body runs, the `finally` clause ends the session whatever happened,
and only a successful body reaches the aggregation phase (an uncaught
exception aborts the run after the release). -/
def fullRun (root : Account) (names : List String) : List Event :=
  Event.sessionOpen :: (collectEv root names).1 ++ [Event.sessionEnd] ++
    (match (collectEv root names).2 with
     | some _ => [Event.aggregate]
     | none => [])

/-- Prepend an optional expense item onto the accumulated item list. -/
def consItem (item : Option (String × ExpenseItem))
    (items : List (String × ExpenseItem)) : List (String × ExpenseItem) :=
  match item with
  | some i => i :: items
  | none => items

/-- Concrete witness data: two distinct splits and a two-level account
tree in which `leafAcc` is a child of `rootAcc`. -/
def wSplitA : Split := ⟨1, ⟨0, 1⟩, ⟨1, 1⟩, "Assets", "$", ⟨5, "07", "d"⟩, none⟩

def wSplitB : Split :=
  ⟨2, ⟨0, 1⟩, ⟨1, 1⟩, "Assets.Checking", "$", ⟨3, "12", "e"⟩, none⟩

def leafAcc : Account := .node "Assets.Checking" [wSplitB] []

def rootAcc : Account := .node "Assets" [wSplitA] [leafAcc]

/-- The concrete scenario split of the spec: value -20.00, share price
1.00, and no other split. -/
def soloSplit : Split :=
  ⟨7, ⟨-2000, 100⟩, ⟨1, 1⟩, "Assets.Checking", "$", ⟨738000, "", "atm"⟩, none⟩

theorem bankerRound_eq (q : ℚ) :
    bankerRound q =
      if Int.fract q < 1/2 then ⌊q⌋
      else if 1/2 < Int.fract q then ⌊q⌋ + 1
      else if ⌊q⌋ % 2 = 0 then ⌊q⌋ else ⌊q⌋ + 1 := rfl

theorem bankerRound_intCast (z : ℤ) : bankerRound (z : ℚ) = z := by
  rw [bankerRound_eq, Int.fract_intCast, Int.floor_intCast]
  norm_num

/-- The floor of the negation of a non-integral value. -/
theorem floor_neg_of_fract_ne_zero {q : ℚ} (h : Int.fract q ≠ 0) :
    ⌊-q⌋ = -⌊q⌋ - 1 := by
  rw [Int.floor_eq_iff]
  constructor
  · push_cast
    have := (Int.lt_floor_add_one q).le
    push_cast at this
    linarith
  · have h1 : (⌊q⌋ : ℚ) ≤ q := Int.floor_le q
    have h2 : (⌊q⌋ : ℚ) ≠ q := by
      intro he
      have : Int.fract q = q - (⌊q⌋ : ℚ) := rfl
      exact h (by rw [this, ← he]; simp)
    push_cast
    have : (⌊q⌋ : ℚ) < q := lt_of_le_of_ne h1 h2
    linarith

/-- Banker's rounding is an odd function: rounding the negation gives the
negated rounding (ties go to the even neighbour on both sides). -/
theorem bankerRound_neg (q : ℚ) : bankerRound (-q) = -(bankerRound q) := by
  by_cases hz : Int.fract q = 0
  · obtain ⟨z, hq⟩ : ∃ z : ℤ, q = (z : ℚ) :=
      ⟨⌊q⌋, by
        have : Int.fract q = q - ⌊q⌋ := rfl
        rw [this] at hz
        linarith⟩
    subst hq
    rw [← Int.cast_neg, bankerRound_intCast, bankerRound_intCast]
  · have h0 : 0 < Int.fract q := lt_of_le_of_ne (Int.fract_nonneg q) (Ne.symm hz)
    have h1 : Int.fract q < 1 := Int.fract_lt_one q
    have hfn : Int.fract (-q) = 1 - Int.fract q := Int.fract_neg hz
    have hfl : ⌊-q⌋ = -⌊q⌋ - 1 := floor_neg_of_fract_ne_zero hz
    rw [bankerRound_eq, bankerRound_eq, hfn, hfl]
    rcases lt_trichotomy (Int.fract q) (1/2) with hc | hc | hc
    · rw [if_neg (by linarith), if_pos (by linarith), if_pos hc]
      ring
    · have e1 : ¬(1 - Int.fract q < 1/2) := by rw [hc]; norm_num
      have e2 : ¬(1/2 < 1 - Int.fract q) := by rw [hc]; norm_num
      have e3 : ¬(Int.fract q < 1/2) := by rw [hc]; norm_num
      have e4 : ¬(1/2 < Int.fract q) := by rw [hc]; norm_num
      rw [if_neg e1, if_neg e2, if_neg e3, if_neg e4]
      by_cases hpar : ⌊q⌋ % 2 = 0
      · rw [if_neg (show ¬(-⌊q⌋ - 1) % 2 = 0 by omega), if_pos hpar]
        ring
      · rw [if_pos (show (-⌊q⌋ - 1) % 2 = 0 by omega), if_neg hpar]
        ring
    · rw [if_pos (by linarith), if_neg (not_lt.mpr (le_of_lt hc)),
        if_pos hc]
      ring

theorem isPenny_quantize2 (q : ℚ) : IsPenny (quantize2 q) :=
  ⟨bankerRound (q * 100), rfl⟩

theorem IsPenny.add {a b : ℚ} (ha : IsPenny a) (hb : IsPenny b) :
    IsPenny (a + b) := by
  obtain ⟨x, hx⟩ := ha
  obtain ⟨y, hy⟩ := hb
  exact ⟨x + y, by rw [hx, hy]; push_cast; ring⟩

theorem IsPenny.zero : IsPenny 0 := ⟨0, by norm_num⟩

/-- Quantizing to two places fixes exact 2-decimal values. -/
theorem IsPenny.quantize2_eq {q : ℚ} (h : IsPenny q) : quantize2 q = q := by
  obtain ⟨z, hz⟩ := h
  subst hz
  rw [quantize2, div_mul_cancel₀ _ (by norm_num : (100 : ℚ) ≠ 0),
    bankerRound_intCast]

theorem isPenny_sum {l : List ℚ} (h : ∀ q ∈ l, IsPenny q) :
    IsPenny l.sum := by
  induction l with
  | nil => simpa using IsPenny.zero
  | cons a t ih =>
      rw [List.sum_cons]
      exact (h a (by simp)).add (ih fun q hq => h q (by simp [hq]))

/-- `tripleLE` is antisymmetric on any collection in which the split id
(Python object identity) determines the whole record; this is exactly the
situation in a real run, where `id` is the CPython object address. -/
theorem tripleLE_antisymm_of_id (t u : Triple)
    (hid : t.2.2.id = u.2.2.id → t = u)
    (htu : tripleLE t u) (hut : tripleLE u t) : t = u := by
  rcases htu with h1 | ⟨e1, h1⟩
  · rcases hut with h2 | ⟨e2, _⟩
    · exact absurd (h1.trans h2) (lt_irrefl _)
    · exact absurd h1 (by simp [e2])
  · rcases hut with h2 | ⟨e2, h2⟩
    · exact absurd h2 (by simp [e1])
    · rcases h1 with h1 | ⟨f1, h1⟩
      · rcases h2 with h2 | ⟨f2, _⟩
        · exact absurd (h1.trans h2) (lt_irrefl _)
        · exact absurd h1 (by simp [f2])
      · rcases h2 with h2 | ⟨f2, h2⟩
        · exact absurd h2 (by simp [f1])
        · exact hid (Nat.le_antisymm h1 h2)

/-- Claim C3: for a split of a two-leg transaction with recorded value V
and nonzero share price P, the computed local amount is exactly -V/P
rounded by banker's-unbiased division to the 3-decimal intermediate
(denominator 1000), and the computed foreign amount is the other leg's raw
recorded value, with no conversion applied. -/
theorem local_amount_banker_div (s : Split) (o : OtherLeg)
    (ho : s.otherSplit = some o) (hp : s.sharePrice.num ≠ 0) :
    ratOf (localAmount s) =
      (bankerRound (-(ratOf s.value / ratOf s.sharePrice) * 1000) : ℚ) / 1000
    ∧ foreignAmountOf s = some o.value := by
  constructor
  · have h : -(ratOf s.value / ratOf s.sharePrice) * 1000 =
        -(ratOf s.value / ratOf s.sharePrice * 1000) := by ring
    rw [h, bankerRound_neg]
    unfold localAmount GncNumeric.div GncNumeric.neg ratOf
    push_cast
    ring
  · simp [foreignAmountOf, ho]

theorem local_amount_banker_div_witness :
    ((⟨1, ⟨-2000, 100⟩, ⟨1, 1⟩, "Assets.Checking", "$",
      ⟨738000, "", "groceries"⟩,
      some ⟨"Expenses.Food.Groceries", "US$", ⟨1100, 100⟩⟩⟩ : Split).sharePrice.num ≠ 0)
    ∧ (ratOf (localAmount
        ⟨1, ⟨-2000, 100⟩, ⟨1, 1⟩, "Assets.Checking", "$",
         ⟨738000, "", "groceries"⟩,
         some ⟨"Expenses.Food.Groceries", "US$", ⟨1100, 100⟩⟩⟩) =
      (bankerRound (-(ratOf (⟨-2000, 100⟩ : GncNumeric) /
          ratOf (⟨1, 1⟩ : GncNumeric)) * 1000) : ℚ) / 1000
      ∧ foreignAmountOf
          ⟨1, ⟨-2000, 100⟩, ⟨1, 1⟩, "Assets.Checking", "$",
           ⟨738000, "", "groceries"⟩,
           some ⟨"Expenses.Food.Groceries", "US$", ⟨1100, 100⟩⟩⟩ =
        some (⟨1100, 100⟩ : GncNumeric)) :=
  ⟨by decide,
   local_amount_banker_div _ ⟨"Expenses.Food.Groceries", "US$", ⟨1100, 100⟩⟩
     rfl (by decide)⟩

/-- Claim C7: the displayed exchange rate is the reciprocal of the share
price quantized (half-even) to 6 decimal places when the split has an
other split, and exactly 1 when no other split exists. -/
theorem display_rate_reciprocal (s : Split) :
    (s.otherSplit.isSome → displayRate s = quantize6 (ratOf s.sharePrice)⁻¹)
    ∧ (s.otherSplit = none → displayRate s = 1) := by
  constructor
  · intro h
    rw [displayRate, if_pos h]
    rw [ratOf, inv_div]
  · intro h
    rw [displayRate, h]
    rfl

theorem display_rate_reciprocal_witness :
    ((⟨1, ⟨-2000, 100⟩, ⟨4, 3⟩, "Assets.Checking", "$",
      ⟨738000, "", "x"⟩,
      some ⟨"Expenses.Food.Groceries", "US$", ⟨1100, 100⟩⟩⟩ : Split).otherSplit.isSome)
    ∧ (((⟨1, ⟨-2000, 100⟩, ⟨4, 3⟩, "Assets.Checking", "$",
        ⟨738000, "", "x"⟩,
        some ⟨"Expenses.Food.Groceries", "US$", ⟨1100, 100⟩⟩⟩ : Split).otherSplit.isSome →
        displayRate
          ⟨1, ⟨-2000, 100⟩, ⟨4, 3⟩, "Assets.Checking", "$",
           ⟨738000, "", "x"⟩,
           some ⟨"Expenses.Food.Groceries", "US$", ⟨1100, 100⟩⟩⟩ =
          quantize6 (ratOf (⟨4, 3⟩ : GncNumeric))⁻¹)
      ∧ ((⟨1, ⟨-2000, 100⟩, ⟨4, 3⟩, "Assets.Checking", "$",
          ⟨738000, "", "x"⟩,
          some ⟨"Expenses.Food.Groceries", "US$", ⟨1100, 100⟩⟩⟩ : Split).otherSplit = none →
          displayRate
            ⟨1, ⟨-2000, 100⟩, ⟨4, 3⟩, "Assets.Checking", "$",
             ⟨738000, "", "x"⟩,
             some ⟨"Expenses.Food.Groceries", "US$", ⟨1100, 100⟩⟩⟩ = 1)) :=
  ⟨by decide, display_rate_reciprocal _⟩

/-- Claim C5: when a split's unique other split has a full account path of
at least 2 segments, the transcript loop appends an expense entry whose
category is path segment index 1 and whose leaf-account name is the last
path segment of the other split's account path. -/
theorem category_is_second_segment (t : Triple) (o : OtherLeg)
    (ho : t.2.2.otherSplit = some o)
    (hlen : 2 ≤ (pathSegments o.fullName).length) :
    ∃ cat acc,
      step t = .ok (⟨t.1, t.2.2.parent.description,
                     some (o.fullName, o.currency, o.value),
                     (t.2.2.accountName, t.2.2.currency, localAmount t.2.2)⟩,
                    some (cat, acc, localAmount t.2.2, o.value))
      ∧ (pathSegments o.fullName)[1]? = some cat
      ∧ (pathSegments o.fullName).getLast? = some acc := by
  have h1 : (pathSegments o.fullName)[1]? =
      some ((pathSegments o.fullName).get ⟨1, by omega⟩) := by
    rw [List.getElem?_eq_getElem (by omega : 1 < (pathSegments o.fullName).length)]
    simp [List.get_eq_getElem]
  have hne : pathSegments o.fullName ≠ [] := by
    intro h
    rw [h] at hlen
    simp at hlen
  have h2 : (pathSegments o.fullName).getLast? =
      some ((pathSegments o.fullName).getLast hne) :=
    List.getLast?_eq_getLast _ hne
  refine ⟨_, _, ?_, h1, h2⟩
  simp only [step, ho, h1, h2]

theorem category_is_second_segment_witness :
    (2 ≤ (pathSegments "Expenses.Food.Groceries").length)
    ∧ (∃ cat acc,
        step (738000, "",
          ⟨1, ⟨-2000, 100⟩, ⟨1, 1⟩, "Assets.Checking", "$",
           ⟨738000, "", "groceries"⟩,
           some ⟨"Expenses.Food.Groceries", "US$", ⟨1100, 100⟩⟩⟩) =
          .ok (⟨738000, "groceries",
                some ("Expenses.Food.Groceries", "US$", ⟨1100, 100⟩),
                ("Assets.Checking", "$", localAmount
                  ⟨1, ⟨-2000, 100⟩, ⟨1, 1⟩, "Assets.Checking", "$",
                   ⟨738000, "", "groceries"⟩,
                   some ⟨"Expenses.Food.Groceries", "US$", ⟨1100, 100⟩⟩⟩)⟩,
               some (cat, acc, localAmount
                  ⟨1, ⟨-2000, 100⟩, ⟨1, 1⟩, "Assets.Checking", "$",
                   ⟨738000, "", "groceries"⟩,
                   some ⟨"Expenses.Food.Groceries", "US$", ⟨1100, 100⟩⟩⟩,
                 (⟨1100, 100⟩ : GncNumeric)))
        ∧ (pathSegments "Expenses.Food.Groceries")[1]? = some cat
        ∧ (pathSegments "Expenses.Food.Groceries").getLast? = some acc) :=
  ⟨by decide,
   category_is_second_segment _ ⟨"Expenses.Food.Groceries", "US$", ⟨1100, 100⟩⟩
     rfl (by decide)⟩

theorem except_map_ok {e b c : Type} (f : b → c) (a : b) :
    (Except.ok a : Except e b).map f = .ok (f a) := rfl

theorem except_map_error {e b c : Type} (f : b → c) (x : e) :
    (Except.error x : Except e b).map f = .error x := rfl

/-- The transcript record produced for a split with no other split: the
placeholder counterparty line, and no expense item. -/
theorem step_no_other {t : Triple} (h : t.2.2.otherSplit = none) :
    step t = .ok (⟨t.1, t.2.2.parent.description, none,
      (t.2.2.accountName, t.2.2.currency, localAmount t.2.2)⟩, none) := by
  simp [step, h]

theorem processAll_cons_error {t : Triple} (ts : List Triple) {x : Unit}
    (h : step t = .error x) : processAll (t :: ts) = .error x := by
  unfold processAll
  rw [h]

theorem processAll_cons_ok {t : Triple} (ts : List Triple)
    {entry : TranscriptEntry} {item : Option (String × ExpenseItem)}
    (h : step t = .ok (entry, item)) :
    processAll (t :: ts) =
      (processAll ts).map fun w => (entry :: w.1, consItem item w.2) := by
  simp only [processAll, h]
  cases processAll ts with
  | error e => rfl
  | ok w =>
      obtain ⟨es, items⟩ := w
      cases item with
      | some i => rfl
      | none => rfl

theorem processAll_snd_cons {t : Triple} (ts : List Triple)
    {entry : TranscriptEntry} {item : Option (String × ExpenseItem)}
    (h : step t = .ok (entry, item)) :
    (processAll (t :: ts)).map Prod.snd =
      ((processAll ts).map Prod.snd).map (fun items => consItem item items) := by
  rw [processAll_cons_ok ts h]
  cases processAll ts with
  | error e => rfl
  | ok w => rfl

/-- A produced expense item always originates from a split with an other
split: its local amount is the converted amount of that split and its
foreign amount is the other leg's raw value. -/
theorem step_item_sound (t : Triple) (entry : TranscriptEntry)
    (i : String × ExpenseItem) (h : step t = .ok (entry, some i)) :
    ∃ o, t.2.2.otherSplit = some o ∧
      i.2.2.1 = localAmount t.2.2 ∧ i.2.2.2 = o.value := by
  rcases hso : t.2.2.otherSplit with _ | o
  · simp [step, hso] at h
  · rcases hseg : (pathSegments o.fullName)[1]? with _ | cat
    · simp [step, hso, hseg] at h
    · rcases hlast : (pathSegments o.fullName).getLast? with _ | acc
      · simp [step, hso, hseg, hlast] at h
      · refine ⟨o, rfl, ?_⟩
        simp only [step, hso, hseg, hlast, Except.ok.injEq, Prod.mk.injEq,
          Option.some.injEq] at h
        obtain ⟨h1, h2⟩ := h
        subst h2
        exact ⟨rfl, rfl⟩

theorem processAll_items_sound (data : List Triple)
    (r : List TranscriptEntry × List (String × ExpenseItem))
    (hr : processAll data = .ok r) :
    ∀ it ∈ r.2, ∃ t, t ∈ data ∧ ∃ o, t.2.2.otherSplit = some o ∧
      it.2.2.1 = localAmount t.2.2 ∧ it.2.2.2 = o.value := by
  induction data generalizing r with
  | nil =>
      simp only [processAll, Except.ok.injEq] at hr
      subst hr
      simp
  | cons t ts ih =>
      cases hstep : step t with
      | error e => rw [processAll_cons_error ts hstep] at hr; exact absurd hr (by simp)
      | ok v =>
          obtain ⟨entry, item⟩ := v
          rw [processAll_cons_ok ts hstep] at hr
          cases hp : processAll ts with
          | error e => rw [hp, except_map_error] at hr; exact absurd hr (by simp)
          | ok w =>
              rw [hp, except_map_ok] at hr
              simp only [Except.ok.injEq] at hr
              subst hr
              cases item with
              | none =>
                  intro it hit
                  simp only [consItem] at hit
                  obtain ⟨u, hu, rest⟩ := ih w hp it hit
                  exact ⟨u, List.mem_cons_of_mem _ hu, rest⟩
              | some i =>
                  intro it hit
                  simp only [consItem] at hit
                  have hit2 : it = i ∨ it ∈ w.2 := List.mem_cons.mp hit
                  rcases hit2 with hit2 | hit2
                  · subst hit2
                    obtain ⟨o, ho, h1, h2⟩ := step_item_sound t entry it hstep
                    exact ⟨t, List.mem_cons_self t ts, o, ho, h1, h2⟩
                  · obtain ⟨u, hu, rest⟩ := ih w hp it hit2
                    exact ⟨u, List.mem_cons_of_mem _ hu, rest⟩

/-- Claim C10: in the document's per-category tables the foreign cell is
the literal N/A exactly when the accumulated 2-decimal foreign sum equals
the accumulated 2-decimal local sum, and shows the accumulated foreign sum
otherwise; entries of these tables only ever come from splits that do have
an other split, so a missing foreign amount never produces N/A. -/
theorem na_cell_exactly_when_equal (v : List ExpenseItem) (name : String)
    (data : List Triple)
    (r : List TranscriptEntry × List (String × ExpenseItem))
    (hr : processAll data = .ok r) :
    (docForeignCell v name = .na ↔ foreignGroupD v name = localGroupD v name)
    ∧ (foreignGroupD v name ≠ localGroupD v name →
        docForeignCell v name = .amount (foreignGroupD v name))
    ∧ (∀ it ∈ r.2, ∃ t, t ∈ data ∧ ∃ o,
        t.2.2.otherSplit = some o ∧ it.2.2.2 = o.value) := by
  refine ⟨?_, ?_, ?_⟩
  · unfold docForeignCell
    by_cases h : foreignGroupD v name = localGroupD v name
    · simp [h]
    · simp [h]
  · intro h
    simp [docForeignCell, h]
  · intro it hit
    obtain ⟨t, ht, o, ho, _, h2⟩ := processAll_items_sound data r hr it hit
    exact ⟨t, ht, o, ho, h2⟩

theorem na_cell_exactly_when_equal_witness :
    (processAll [] = .ok ([], []))
    ∧ ((docForeignCell [("A", ⟨100, 100⟩, ⟨200, 100⟩)] "A" = .na ↔
          foreignGroupD [("A", ⟨100, 100⟩, ⟨200, 100⟩)] "A" =
            localGroupD [("A", ⟨100, 100⟩, ⟨200, 100⟩)] "A")
      ∧ (foreignGroupD [("A", ⟨100, 100⟩, ⟨200, 100⟩)] "A" ≠
            localGroupD [("A", ⟨100, 100⟩, ⟨200, 100⟩)] "A" →
          docForeignCell [("A", ⟨100, 100⟩, ⟨200, 100⟩)] "A" =
            .amount (foreignGroupD [("A", ⟨100, 100⟩, ⟨200, 100⟩)] "A"))
      ∧ (∀ it ∈ (([], []) :
            List TranscriptEntry × List (String × ExpenseItem)).2,
          ∃ t, t ∈ ([] : List Triple) ∧ ∃ o,
            t.2.2.otherSplit = some o ∧ it.2.2.2 = o.value)) :=
  ⟨rfl, na_cell_exactly_when_equal [("A", ⟨100, 100⟩, ⟨200, 100⟩)] "A" [] ([], []) rfl⟩

/-- Claim C8: splits without an other split contribute nothing to the
expenses map (removing them leaves the map unchanged) yet still appear in
the transcript with the placeholder counterparty line; concretely, the
value=-20.00, price=1.00, no-other split yields local amount 20.00, an
absent foreign amount, and a transcript record with the placeholder. -/
theorem no_other_split_placeholder (data : List Triple) :
    ((processAll data).map Prod.snd =
      (processAll (data.filter fun t => t.2.2.otherSplit.isSome)).map Prod.snd)
    ∧ (∀ t ∈ data, t.2.2.otherSplit = none →
        ∀ r, processAll data = .ok r →
          (⟨t.1, t.2.2.parent.description, none,
            (t.2.2.accountName, t.2.2.currency, localAmount t.2.2)⟩ :
              TranscriptEntry) ∈ r.1)
    ∧ ratOf (localAmount soloSplit) = 20
    ∧ foreignAmountOf soloSplit = none
    ∧ processAll [tripleOf soloSplit] =
        .ok ([⟨738000, "atm", none,
              ("Assets.Checking", "$", localAmount soloSplit)⟩], []) := by
  refine ⟨?_, ?_, ?_, rfl, rfl⟩
  · induction data with
    | nil => rfl
    | cons t ts ih =>
        rcases hso : t.2.2.otherSplit with _ | o
        · rw [List.filter_cons_of_neg (by simp [hso])]
          rw [processAll_snd_cons ts (step_no_other hso), ih]
          cases processAll (ts.filter fun t => t.2.2.otherSplit.isSome) with
          | error e => rfl
          | ok w => rfl
        · rw [List.filter_cons_of_pos (by simp [hso])]
          cases hstep : step t with
          | error e =>
              rw [processAll_cons_error ts hstep,
                processAll_cons_error _ hstep]
          | ok v =>
              obtain ⟨entry, item⟩ := v
              rw [processAll_snd_cons ts hstep, processAll_snd_cons _ hstep,
                ih]
  · induction data with
    | nil => intro t ht; simp at ht
    | cons u ts ih =>
        intro t ht hso r hr
        rcases List.mem_cons.mp ht with hhead | htail
        · subst hhead
          rw [processAll_cons_ok ts (step_no_other hso)] at hr
          cases hp : processAll ts with
          | error e => rw [hp, except_map_error] at hr; exact absurd hr (by simp)
          | ok w =>
              rw [hp, except_map_ok] at hr
              simp only [Except.ok.injEq] at hr
              subst hr
              exact List.mem_cons_self _ _
        · cases hstep : step u with
          | error e =>
              rw [processAll_cons_error ts hstep] at hr
              exact absurd hr (by simp)
          | ok v =>
              obtain ⟨entry, item⟩ := v
              rw [processAll_cons_ok ts hstep] at hr
              cases hp : processAll ts with
              | error e => rw [hp, except_map_error] at hr; exact absurd hr (by simp)
              | ok w =>
                  rw [hp, except_map_ok] at hr
                  simp only [Except.ok.injEq] at hr
                  subst hr
                  exact List.mem_cons_of_mem _ (ih t htail hso w hp)
  · have harg : ratOf soloSplit.value / ratOf soloSplit.sharePrice *
        ((1000 : ℤ) : ℚ) = ((-20000 : ℤ) : ℚ) := by
      unfold soloSplit ratOf
      norm_num
    unfold localAmount GncNumeric.div GncNumeric.neg
    dsimp only
    rw [harg, bankerRound_intCast]
    unfold ratOf
    norm_num

theorem no_other_split_placeholder_witness :
    ((tripleOf soloSplit).2.2.otherSplit = none)
    ∧ ((⟨(tripleOf soloSplit).1, (tripleOf soloSplit).2.2.parent.description,
          none,
          ((tripleOf soloSplit).2.2.accountName,
           (tripleOf soloSplit).2.2.currency,
           localAmount (tripleOf soloSplit).2.2)⟩ : TranscriptEntry) ∈
        (([⟨738000, "atm", none,
            ("Assets.Checking", "$", localAmount soloSplit)⟩], []) :
          List TranscriptEntry × List (String × ExpenseItem)).1) :=
  ⟨rfl,
   (no_other_split_placeholder [tripleOf soloSplit]).2.1 (tripleOf soloSplit)
     (List.mem_cons_self _ _) rfl _ rfl⟩

/-- The `try` body only ever emits lookup events. -/
theorem resolveEv_lookup_only (l : List String) :
    ∀ (a : Account), ∀ e ∈ (resolveEv a l).1, ∃ s, e = .lookup s := by
  induction l with
  | nil =>
      intro a e he
      simp [resolveEv] at he
  | cons s rest ih =>
      intro a e he
      unfold resolveEv at he
      cases h : lookupByName a s with
      | some c =>
          rw [h] at he
          simp only [List.mem_cons] at he
          rcases he with he | he
          · exact ⟨s, he⟩
          · exact ih c e he
      | none =>
          rw [h] at he
          simp only [List.mem_cons, List.not_mem_nil, or_false] at he
          exact ⟨s, he⟩

theorem collectEv_lookup_only (root : Account) (names : List String) :
    ∀ e ∈ (collectEv root names).1, ∃ s, e = .lookup s := by
  induction names with
  | nil =>
      intro e he
      simp [collectEv] at he
  | cons n ns ih =>
      intro e he
      unfold collectEv at he
      cases h : (resolveEv root (pathSegments n)).2 with
      | some a =>
          rw [h] at he
          simp only [List.mem_append] at he
          rcases he with he | he
          · exact resolveEv_lookup_only _ root e he
          · exact ih e he
      | none =>
          rw [h] at he
          exact resolveEv_lookup_only _ root e he

/-- Claim C9: on every execution path the ledger session is ended exactly
once per open — also when a lookup fails inside the `try` body — and the
aggregation phase is only ever reached after the session has been ended. -/
theorem session_closed_exactly_once (root : Account) (names : List String) :
    ((fullRun root names).count Event.sessionEnd = 1)
    ∧ ((fullRun root names).count Event.sessionOpen = 1)
    ∧ (Event.aggregate ∈ fullRun root names →
        ∃ pre, fullRun root names = pre ++ [Event.aggregate] ∧
          Event.sessionEnd ∈ pre) := by
  have hlk := collectEv_lookup_only root names
  have hend : Event.sessionEnd ∉ (collectEv root names).1 := by
    intro hmem
    obtain ⟨s, hs⟩ := hlk _ hmem
    cases hs
  have hopen : Event.sessionOpen ∉ (collectEv root names).1 := by
    intro hmem
    obtain ⟨s, hs⟩ := hlk _ hmem
    cases hs
  have hagg : Event.aggregate ∉ (collectEv root names).1 := by
    intro hmem
    obtain ⟨s, hs⟩ := hlk _ hmem
    cases hs
  unfold fullRun
  cases hres : (collectEv root names).2 with
  | some d =>
      refine ⟨?_, ?_, ?_⟩
      · simp [List.count_append, List.count_cons,
          List.count_eq_zero.mpr hend]
      · simp [List.count_append, List.count_cons,
          List.count_eq_zero.mpr hopen]
      · intro _
        refine ⟨Event.sessionOpen :: (collectEv root names).1 ++
          [Event.sessionEnd], ?_, by simp⟩
        simp
  | none =>
      refine ⟨?_, ?_, ?_⟩
      · simp [List.count_append, List.count_cons,
          List.count_eq_zero.mpr hend]
      · simp [List.count_append, List.count_cons,
          List.count_eq_zero.mpr hopen]
      · intro hmem
        exact absurd hmem (by simp [hagg])

theorem session_closed_exactly_once_witness :
    (Event.aggregate ∈ fullRun (Account.node "Root" [] []) [])
    ∧ (((fullRun (Account.node "Root" [] []) []).count Event.sessionEnd = 1)
      ∧ ((fullRun (Account.node "Root" [] []) []).count Event.sessionOpen = 1)
      ∧ (Event.aggregate ∈ fullRun (Account.node "Root" [] []) [] →
          ∃ pre, fullRun (Account.node "Root" [] []) [] =
            pre ++ [Event.aggregate] ∧ Event.sessionEnd ∈ pre)) :=
  ⟨by decide, session_closed_exactly_once (Account.node "Root" [] []) []⟩

theorem sum_map_filter_split {α : Type} (v : List α) (p : α → Bool)
    (f : α → ℚ) :
    ((v.filter p).map f).sum + ((v.filter fun a => !(p a)).map f).sum =
      (v.map f).sum := by
  induction v with
  | nil => simp
  | cons a t ih =>
      cases hpa : p a with
      | true =>
          simp [List.filter_cons, hpa]
          linarith [ih]
      | false =>
          simp [List.filter_cons, hpa]
          linarith [ih]

theorem filter_name_of_ne {m n : String} (v : List ExpenseItem)
    (hne : m ≠ n) :
    ((v.filter fun e => !(e.1 == n)).filter fun e => e.1 == m) =
      v.filter fun e => e.1 == m := by
  induction v with
  | nil => rfl
  | cons a t ih =>
      cases hm : (a.1 == m) with
      | true =>
          have hm' : a.1 = m := by simpa using hm
          have hn : (a.1 == n) = false := by
            simp [hm', hne]
          simp [List.filter_cons, hm, hn, ih]
      | false =>
          cases hn : (a.1 == n) with
          | true => simp [List.filter_cons, hm, hn, ih]
          | false => simp [List.filter_cons, hm, hn, ih]

theorem sum_over_groups (v : List ExpenseItem) (f : ExpenseItem → ℚ) :
    ∀ (names : List String), names.Nodup → (∀ e ∈ v, e.1 ∈ names) →
      (names.map fun n => ((v.filter fun e => e.1 == n).map f).sum).sum =
        (v.map f).sum := by
  intro names
  induction names generalizing v with
  | nil =>
      intro _ hcov
      cases v with
      | nil => simp
      | cons e t => exact absurd (hcov e (by simp)) (by simp)
  | cons n rest ih =>
      intro hnd hcov
      have hnn : n ∉ rest := (List.nodup_cons.mp hnd).1
      have hndr : rest.Nodup := (List.nodup_cons.mp hnd).2
      have hcov' : ∀ e ∈ v.filter fun e => !(e.1 == n), e.1 ∈ rest := by
        intro e he
        rw [List.mem_filter] at he
        have hmem := hcov e he.1
        simp only [List.mem_cons] at hmem
        rcases hmem with h | h
        · exfalso
          have := he.2
          rw [h] at this
          simp at this
        · exact h
      have hrw : rest.map (fun m => ((v.filter fun e => e.1 == m).map f).sum)
          = rest.map (fun m => (((v.filter fun e => !(e.1 == n)).filter
              fun e => e.1 == m).map f).sum) := by
        apply List.map_congr_left
        intro m hm
        rw [filter_name_of_ne v (fun hmn => hnn (by rw [← hmn]; exact hm))]
      rw [List.map_cons, List.sum_cons, hrw, ih _ hndr hcov']
      exact sum_map_filter_split v _ f

theorem mem_groupNames {v : List ExpenseItem} {e : ExpenseItem}
    (he : e ∈ v) : e.1 ∈ groupNames v := by
  unfold groupNames
  have h : e.1 ∈ (v.map Prod.fst).dedup :=
    List.mem_dedup.mpr (List.mem_map_of_mem _ he)
  exact ((List.perm_insertionSort strLE _).mem_iff).mpr h

theorem groupNames_nodup (v : List ExpenseItem) : (groupNames v).Nodup := by
  unfold groupNames
  exact ((List.perm_insertionSort strLE _).nodup_iff).mpr (List.nodup_dedup _)

/-- The text path's category total is the exact sum of the entries' exact
local values: grouping by leaf account loses nothing. -/
theorem localSumT_eq_total (v : List ExpenseItem) :
    localSumT v = (v.map fun e => ratOf e.2.1).sum := by
  unfold localSumT localGroupT
  exact sum_over_groups v _ (groupNames v) (groupNames_nodup v)
    (fun e he => mem_groupNames he)

theorem foreignSumT_eq_total (v : List ExpenseItem) :
    foreignSumT v = (v.map fun e => ratOf e.2.2).sum := by
  unfold foreignSumT foreignGroupT
  exact sum_over_groups v _ (groupNames v) (groupNames_nodup v)
    (fun e he => mem_groupNames he)

/-- Claim C2 (amended): in the document path every per-leaf subtotal is an
exact 2-decimal value, so displaying it performs no rounding, and the
category total is exactly the sum of the displayed per-leaf subtotals; in
the text path the category total is the exact sum of all entries, quantized
only once at display time.  (The claim's stronger assertion — that
per-entry quantization and one-shot quantization always agree — is refuted
by the counterexample.) -/
theorem category_totals_amended (v : List ExpenseItem) :
    (∀ n, quantize2 (localGroupD v n) = localGroupD v n)
    ∧ quantize2 (localSumD v) = localSumD v
    ∧ localSumD v = ((groupNames v).map fun n => quantize2 (localGroupD v n)).sum
    ∧ localSumT v = (v.map fun e => ratOf e.2.1).sum := by
  have hpen : ∀ n, IsPenny (localGroupD v n) := by
    intro n
    unfold localGroupD
    apply isPenny_sum
    intro q hq
    rw [List.mem_map] at hq
    obtain ⟨e, _, he⟩ := hq
    rw [← he]
    exact isPenny_quantize2 _
  refine ⟨fun n => (hpen n).quantize2_eq, ?_, ?_, localSumT_eq_total v⟩
  · apply IsPenny.quantize2_eq
    unfold localSumD
    apply isPenny_sum
    intro q hq
    rw [List.mem_map] at hq
    obtain ⟨n, _, hn⟩ := hq
    rw [← hn]
    exact hpen n
  · unfold localSumD
    congr 1
    apply List.map_congr_left
    intro n _
    exact ((hpen n).quantize2_eq).symm

/-- Claim C2 counterexample: with two leaf accounts each holding a single
0.005 entry, the sum of the displayed (rounded) per-leaf subtotals in the
text path is 0.00 while the displayed category total is 0.01, and the
document path's category total 0.00 disagrees with the text path's
displayed total 0.01 — per-entry quantization and one-shot quantization do
not agree. -/
theorem category_totals_counterexample :
    (((groupNames [("A", (⟨5, 1000⟩ : GncNumeric), (⟨0, 1⟩ : GncNumeric)),
          ("B", ⟨5, 1000⟩, ⟨0, 1⟩)]).map fun n =>
        quantize2 (localGroupT
          [("A", ⟨5, 1000⟩, ⟨0, 1⟩), ("B", ⟨5, 1000⟩, ⟨0, 1⟩)] n)).sum ≠
      quantize2 (localSumT
        [("A", ⟨5, 1000⟩, ⟨0, 1⟩), ("B", ⟨5, 1000⟩, ⟨0, 1⟩)]))
    ∧ localSumD [("A", ⟨5, 1000⟩, ⟨0, 1⟩), ("B", ⟨5, 1000⟩, ⟨0, 1⟩)] ≠
      quantize2 (localSumT
        [("A", ⟨5, 1000⟩, ⟨0, 1⟩), ("B", ⟨5, 1000⟩, ⟨0, 1⟩)]) := by
  have hg : groupNames [("A", (⟨5, 1000⟩ : GncNumeric), (⟨0, 1⟩ : GncNumeric)),
      ("B", ⟨5, 1000⟩, ⟨0, 1⟩)] = ["A", "B"] := by decide
  have hfA : List.filter (fun e => e.1 == "A")
      [("A", (⟨5, 1000⟩ : GncNumeric), (⟨0, 1⟩ : GncNumeric)),
       ("B", ⟨5, 1000⟩, ⟨0, 1⟩)] = [("A", ⟨5, 1000⟩, ⟨0, 1⟩)] := by decide
  have hfB : List.filter (fun e => e.1 == "B")
      [("A", (⟨5, 1000⟩ : GncNumeric), (⟨0, 1⟩ : GncNumeric)),
       ("B", ⟨5, 1000⟩, ⟨0, 1⟩)] = [("B", ⟨5, 1000⟩, ⟨0, 1⟩)] := by decide
  have hA : localGroupT
      [("A", (⟨5, 1000⟩ : GncNumeric), (⟨0, 1⟩ : GncNumeric)),
       ("B", ⟨5, 1000⟩, ⟨0, 1⟩)] "A" = 1/200 := by
    unfold localGroupT
    rw [hfA]
    simp only [List.map_cons, List.map_nil, List.sum_cons, List.sum_nil]
    unfold ratOf
    norm_num
  have hB : localGroupT
      [("A", (⟨5, 1000⟩ : GncNumeric), (⟨0, 1⟩ : GncNumeric)),
       ("B", ⟨5, 1000⟩, ⟨0, 1⟩)] "B" = 1/200 := by
    unfold localGroupT
    rw [hfB]
    simp only [List.map_cons, List.map_nil, List.sum_cons, List.sum_nil]
    unfold ratOf
    norm_num
  have hAD : localGroupD
      [("A", (⟨5, 1000⟩ : GncNumeric), (⟨0, 1⟩ : GncNumeric)),
       ("B", ⟨5, 1000⟩, ⟨0, 1⟩)] "A" = quantize2 (1/200) := by
    unfold localGroupD
    rw [hfA]
    simp only [List.map_cons, List.map_nil, List.sum_cons, List.sum_nil]
    rw [show ratOf ⟨5, 1000⟩ = 1/200 by unfold ratOf; norm_num]
    ring
  have hBD : localGroupD
      [("A", (⟨5, 1000⟩ : GncNumeric), (⟨0, 1⟩ : GncNumeric)),
       ("B", ⟨5, 1000⟩, ⟨0, 1⟩)] "B" = quantize2 (1/200) := by
    unfold localGroupD
    rw [hfB]
    simp only [List.map_cons, List.map_nil, List.sum_cons, List.sum_nil]
    rw [show ratOf ⟨5, 1000⟩ = 1/200 by unfold ratOf; norm_num]
    ring
  have q1 : quantize2 (1/200 : ℚ) = 0 := by
    norm_num [quantize2, bankerRound]
  have q2 : quantize2 (1/100 : ℚ) = 1/100 := by
    norm_num [quantize2, bankerRound]
  have hsum : localSumT [("A", (⟨5, 1000⟩ : GncNumeric), (⟨0, 1⟩ : GncNumeric)),
      ("B", ⟨5, 1000⟩, ⟨0, 1⟩)] = 1/100 := by
    unfold localSumT
    rw [hg]
    simp only [List.map_cons, List.map_nil, List.sum_cons, List.sum_nil]
    rw [hA, hB]
    norm_num
  constructor
  · rw [hg, hsum, q2]
    simp only [List.map_cons, List.map_nil, List.sum_cons, List.sum_nil]
    rw [hA, hB, q1]
    norm_num
  · rw [hsum, q2]
    unfold localSumD
    rw [hg]
    simp only [List.map_cons, List.map_nil, List.sum_cons, List.sum_nil]
    rw [hAD, hBD, q1]
    norm_num

/-- Claim C6 (amended): the accumulated grand totals equal the exact sums
of the exact per-category totals — equivalently the exact sum over every
entry of every category — in both currencies; the displayed grand total is
this exact sum quantized once.  (The claim's assertion that the displayed
grand total equals the sum of the displayed per-category totals is refuted
by the counterexample.) -/
theorem grand_total_amended (ex : ExpenseMap) :
    expenseLocalT ex = (ex.map fun c => (c.2.map fun e => ratOf e.2.1).sum).sum
    ∧ expenseForeignT ex =
        (ex.map fun c => (c.2.map fun e => ratOf e.2.2).sum).sum := by
  constructor
  · unfold expenseLocalT
    congr 1
    apply List.map_congr_left
    intro c _
    exact localSumT_eq_total c.2
  · unfold expenseForeignT
    congr 1
    apply List.map_congr_left
    intro c _
    exact foreignSumT_eq_total c.2

/-- Claim C6 counterexample: with two categories whose exact totals are
0.005 each, the displayed grand total is 0.01 but the sum of the displayed
per-category totals is 0.00, in both currencies. -/
theorem grand_total_counterexample :
    (quantize2 (expenseLocalT
        [("Food", [("A", (⟨5, 1000⟩ : GncNumeric), (⟨5, 1000⟩ : GncNumeric))]),
         ("Travel", [("B", ⟨5, 1000⟩, ⟨5, 1000⟩)])]) ≠
      ([("Food", [("A", (⟨5, 1000⟩ : GncNumeric), (⟨5, 1000⟩ : GncNumeric))]),
        ("Travel", [("B", ⟨5, 1000⟩, ⟨5, 1000⟩)])].map fun c =>
          quantize2 (localSumT c.2)).sum)
    ∧ (quantize2 (expenseForeignT
        [("Food", [("A", (⟨5, 1000⟩ : GncNumeric), (⟨5, 1000⟩ : GncNumeric))]),
         ("Travel", [("B", ⟨5, 1000⟩, ⟨5, 1000⟩)])]) ≠
      ([("Food", [("A", (⟨5, 1000⟩ : GncNumeric), (⟨5, 1000⟩ : GncNumeric))]),
        ("Travel", [("B", ⟨5, 1000⟩, ⟨5, 1000⟩)])].map fun c =>
          quantize2 (foreignSumT c.2)).sum) := by
  have hgA : groupNames [("A", (⟨5, 1000⟩ : GncNumeric),
      (⟨5, 1000⟩ : GncNumeric))] = ["A"] := by decide
  have hgB : groupNames [("B", (⟨5, 1000⟩ : GncNumeric),
      (⟨5, 1000⟩ : GncNumeric))] = ["B"] := by decide
  have q1 : quantize2 (1/200 : ℚ) = 0 := by
    norm_num [quantize2, bankerRound]
  have q2 : quantize2 (1/100 : ℚ) = 1/100 := by
    norm_num [quantize2, bankerRound]
  have hffA : List.filter (fun e => e.1 == "A")
      [("A", (⟨5, 1000⟩ : GncNumeric), (⟨5, 1000⟩ : GncNumeric))] =
        [("A", ⟨5, 1000⟩, ⟨5, 1000⟩)] := by decide
  have hffB : List.filter (fun e => e.1 == "B")
      [("B", (⟨5, 1000⟩ : GncNumeric), (⟨5, 1000⟩ : GncNumeric))] =
        [("B", ⟨5, 1000⟩, ⟨5, 1000⟩)] := by decide
  have hsA : localSumT [("A", (⟨5, 1000⟩ : GncNumeric),
      (⟨5, 1000⟩ : GncNumeric))] = 1/200 := by
    unfold localSumT
    rw [hgA]
    simp only [List.map_cons, List.map_nil, List.sum_cons, List.sum_nil]
    unfold localGroupT
    rw [hffA]
    simp only [List.map_cons, List.map_nil, List.sum_cons, List.sum_nil]
    unfold ratOf
    norm_num
  have hsB : localSumT [("B", (⟨5, 1000⟩ : GncNumeric),
      (⟨5, 1000⟩ : GncNumeric))] = 1/200 := by
    unfold localSumT
    rw [hgB]
    simp only [List.map_cons, List.map_nil, List.sum_cons, List.sum_nil]
    unfold localGroupT
    rw [hffB]
    simp only [List.map_cons, List.map_nil, List.sum_cons, List.sum_nil]
    unfold ratOf
    norm_num
  have hfA : foreignSumT [("A", (⟨5, 1000⟩ : GncNumeric),
      (⟨5, 1000⟩ : GncNumeric))] = 1/200 := by
    unfold foreignSumT
    rw [hgA]
    simp only [List.map_cons, List.map_nil, List.sum_cons, List.sum_nil]
    unfold foreignGroupT
    rw [hffA]
    simp only [List.map_cons, List.map_nil, List.sum_cons, List.sum_nil]
    unfold ratOf
    norm_num
  have hfB : foreignSumT [("B", (⟨5, 1000⟩ : GncNumeric),
      (⟨5, 1000⟩ : GncNumeric))] = 1/200 := by
    unfold foreignSumT
    rw [hgB]
    simp only [List.map_cons, List.map_nil, List.sum_cons, List.sum_nil]
    unfold foreignGroupT
    rw [hffB]
    simp only [List.map_cons, List.map_nil, List.sum_cons, List.sum_nil]
    unfold ratOf
    norm_num
  constructor
  · unfold expenseLocalT
    simp only [List.map_cons, List.map_nil, List.sum_cons, List.sum_nil]
    rw [hsA, hsB, q1]
    rw [show (1/200 + (1/200 + 0) : ℚ) = 1/100 by norm_num, q2]
    norm_num
  · unfold expenseForeignT
    simp only [List.map_cons, List.map_nil, List.sum_cons, List.sum_nil]
    rw [hfA, hfB, q1]
    rw [show (1/200 + (1/200 + 0) : ℚ) = 1/100 by norm_num, q2]
    norm_num

/-- A sorted list is determined by its element set when the order is
antisymmetric on those elements. -/
theorem eq_of_perm_of_sorted_restricted {α : Type} (le : α → α → Prop) :
    ∀ (l₁ l₂ : List α),
      (∀ a ∈ l₁, ∀ b ∈ l₁, le a b → le b a → a = b) →
      l₁.Perm l₂ → l₁.Pairwise le → l₂.Pairwise le → l₁ = l₂ := by
  intro l₁
  induction l₁ with
  | nil =>
      intro l₂ _ hp _ _
      exact (List.Perm.eq_nil hp.symm).symm
  | cons a t ih =>
      intro l₂ hanti hp hs₁ hs₂
      cases l₂ with
      | nil =>
          have := hp.length_eq
          simp at this
      | cons b t₂ =>
          have hab : a = b := by
            have ha2 : a ∈ b :: t₂ := hp.mem_iff.mp (by simp)
            have hb1 : b ∈ a :: t := hp.mem_iff.mpr (by simp)
            rcases List.mem_cons.mp ha2 with h | ha2t
            · exact h
            · rcases List.mem_cons.mp hb1 with h | hb1t
              · exact h.symm
              · have hle_ab : le a b := List.rel_of_pairwise_cons hs₁ hb1t
                have hle_ba : le b a := List.rel_of_pairwise_cons hs₂ ha2t
                exact hanti a (by simp) b (by simp [hb1t]) hle_ab hle_ba
          subst hab
          have hperm : t.Perm t₂ := hp.cons_inv
          have heq := ih t₂
            (fun x hx y hy => hanti x (by simp [hx]) y (by simp [hy]))
            hperm hs₁.of_cons hs₂.of_cons
          rw [heq]

mutual

/-- Every triple collected by the traversal is the canonical triple of its
own split: the date and number are read off the split's parent. -/
theorem read_canonical : ∀ (a : Account),
    ∀ t ∈ read_account_transactions a, t = tripleOf t.2.2
  | .node n s c => by
      intro t ht
      unfold read_account_transactions at ht
      rw [List.mem_append] at ht
      rcases ht with ht | ht
      · rw [List.mem_map] at ht
        obtain ⟨sp, _, hsp⟩ := ht
        rw [← hsp]
        rfl
      · exact readChildren_canonical c t ht

theorem readChildren_canonical : ∀ (l : List Account),
    ∀ t ∈ readChildren l, t = tripleOf t.2.2
  | [] => by
      intro t ht
      simp [readChildren] at ht
  | a :: rest => by
      intro t ht
      unfold readChildren at ht
      rw [List.mem_append] at ht
      rcases ht with ht | ht
      · exact read_canonical a t ht
      · exact readChildren_canonical rest t ht

end

mutual

/-- Triples of a descendant account are triples of the ancestor. -/
theorem subAccounts_read_subset : ∀ (a : Account) (d : Account),
    d ∈ subAccounts a →
    ∀ t ∈ read_account_transactions d, t ∈ read_account_transactions a
  | .node n s c, d => by
      intro hd t ht
      unfold subAccounts at hd
      rw [List.mem_cons] at hd
      rcases hd with hd | hd
      · rw [hd] at ht
        exact ht
      · unfold read_account_transactions
        rw [List.mem_append]
        exact Or.inr (subAccountsList_read_subset c d hd t ht)

theorem subAccountsList_read_subset : ∀ (l : List Account) (d : Account),
    d ∈ subAccountsList l →
    ∀ t ∈ read_account_transactions d, t ∈ readChildren l
  | [], d => by
      intro hd
      simp [subAccountsList] at hd
  | a :: rest, d => by
      intro hd t ht
      unfold subAccountsList at hd
      rw [List.mem_append] at hd
      unfold readChildren
      rw [List.mem_append]
      rcases hd with hd | hd
      · exact Or.inl (subAccounts_read_subset a d hd t ht)
      · exact Or.inr (subAccountsList_read_subset rest d hd t ht)

end

theorem mem_dedupSorted {l : List Triple} {t : Triple} :
    t ∈ dedupSorted l ↔ t ∈ l := by
  rw [dedupSorted, (List.perm_insertionSort tripleLE l.dedup).mem_iff,
    List.mem_dedup]

theorem dedupSorted_nodup (l : List Triple) : (dedupSorted l).Nodup :=
  ((List.perm_insertionSort tripleLE l.dedup).nodup_iff).mpr
    (List.nodup_dedup l)

theorem dedupSorted_sorted (l : List Triple) :
    (dedupSorted l).Pairwise tripleLE :=
  List.sorted_insertionSort tripleLE l.dedup

/-- `sorted(set(·))` is canonical: lists with the same members (and
identity-determined records, as in a real run) produce the same output. -/
theorem dedupSorted_canonical (l₁ l₂ : List Triple)
    (hinj : ∀ t ∈ l₁, ∀ u ∈ l₁, t.2.2.id = u.2.2.id → t = u)
    (hmem : ∀ t, t ∈ l₁ ↔ t ∈ l₂) :
    dedupSorted l₁ = dedupSorted l₂ := by
  apply eq_of_perm_of_sorted_restricted tripleLE
  · intro a ha b hb hab hba
    exact tripleLE_antisymm_of_id a b
      (fun hid => hinj a (mem_dedupSorted.mp ha) b (mem_dedupSorted.mp hb) hid)
      hab hba
  · have h2 : l₁.dedup.Perm l₂.dedup := by
      apply (List.perm_ext_iff_of_nodup (List.nodup_dedup _)
        (List.nodup_dedup _)).mpr
      intro t
      rw [List.mem_dedup, List.mem_dedup]
      exact hmem t
    exact (List.perm_insertionSort _ _).trans
      (h2.trans (List.perm_insertionSort _ _).symm)
  · exact dedupSorted_sorted l₁
  · exact dedupSorted_sorted l₂

theorem length_le_one_of_nodup_all_eq {α : Type} {l : List α} {c : α}
    (hnd : l.Nodup) (hall : ∀ x ∈ l, x = c) : l.length ≤ 1 := by
  cases l with
  | nil => simp
  | cons a t =>
      cases t with
      | nil => simp
      | cons b t2 =>
          exfalso
          have hab : a = b := by rw [hall a (by simp), hall b (by simp)]
          rw [List.nodup_cons] at hnd
          exact hnd.1 (by simp [hab])

/-- Claim C4: the deduplicated sorted sequence is non-decreasing by date,
the comparison is a total order (date, then number, then split identity),
and any two inputs with the same members — e.g. two runs enumerating the
same ledger in different orders — produce the identical output sequence. -/
theorem dedup_sort_deterministic (l₁ l₂ : List Triple)
    (hinj : ∀ t ∈ l₁ ++ l₂, ∀ u ∈ l₁ ++ l₂, t.2.2.id = u.2.2.id → t = u)
    (hmem : ∀ t, t ∈ l₁ ↔ t ∈ l₂) :
    dedupSorted l₁ = dedupSorted l₂
    ∧ (dedupSorted l₁).Pairwise (fun a b => a.1 ≤ b.1)
    ∧ (∀ t u : Triple, tripleLE t u ∨ tripleLE u t) := by
  refine ⟨?_, ?_, fun t u => total_of tripleLE t u⟩
  · exact dedupSorted_canonical l₁ l₂
      (fun t ht u hu hid =>
        hinj t (by simp [ht]) u (by simp [hu]) hid) hmem
  · apply List.Pairwise.imp ?_ (dedupSorted_sorted l₁)
    intro a b hab
    rcases hab with h | ⟨h, _⟩
    · exact le_of_lt h
    · exact le_of_eq h

theorem dedup_sort_deterministic_witness :
    (∀ t : Triple, t ∈ [tripleOf wSplitA, tripleOf wSplitB] ↔
        t ∈ [tripleOf wSplitB, tripleOf wSplitA])
    ∧ (dedupSorted [tripleOf wSplitA, tripleOf wSplitB] =
          dedupSorted [tripleOf wSplitB, tripleOf wSplitA]
      ∧ (dedupSorted [tripleOf wSplitA, tripleOf wSplitB]).Pairwise
          (fun a b => a.1 ≤ b.1)
      ∧ (∀ t u : Triple, tripleLE t u ∨ tripleLE u t)) :=
  ⟨fun t => by simp [or_comm],
   dedup_sort_deterministic [tripleOf wSplitA, tripleOf wSplitB]
     [tripleOf wSplitB, tripleOf wSplitA] (by decide)
     (fun t => by simp [or_comm])⟩

/-- Claim C1: over any requested roots, the deduplicated sorted list holds
each physical split at most once — exactly once when the split is reachable
— and requesting an ancestor together with one of its descendants yields
the same deduplicated sorted list as requesting the ancestor alone. -/
theorem dedup_each_split_once (roots : List Account) (s : Split)
    (a d : Account) (hd : d ∈ subAccounts a)
    (hinj : ∀ t ∈ read_account_transactions a,
      ∀ u ∈ read_account_transactions a, t.2.2.id = u.2.2.id → t = u) :
    ((dedupSorted (readChildren roots)).filter fun t => t.2.2 == s).length ≤ 1
    ∧ ((∃ t ∈ readChildren roots, t.2.2 = s) →
        ((dedupSorted (readChildren roots)).filter
          fun t => t.2.2 == s).length = 1)
    ∧ dedupSorted (read_account_transactions a ++ read_account_transactions d)
        = dedupSorted (read_account_transactions a) := by
  have hle : ((dedupSorted (readChildren roots)).filter
      fun t => t.2.2 == s).length ≤ 1 := by
    apply length_le_one_of_nodup_all_eq
      ((dedupSorted_nodup _).filter _)
    intro x hx
    rw [List.mem_filter] at hx
    have hcan := readChildren_canonical roots x (mem_dedupSorted.mp hx.1)
    have hxs : x.2.2 = s := by simpa using hx.2
    calc x = tripleOf x.2.2 := hcan
      _ = tripleOf s := by rw [hxs]
  refine ⟨hle, ?_, ?_⟩
  · rintro ⟨t, ht, hts⟩
    have h1 : t = tripleOf s :=
      (readChildren_canonical roots t ht).trans (by rw [hts])
    have h2 : tripleOf s ∈ dedupSorted (readChildren roots) :=
      mem_dedupSorted.mpr (h1 ▸ ht)
    have h3 : tripleOf s ∈ (dedupSorted (readChildren roots)).filter
        fun t => t.2.2 == s :=
      List.mem_filter.mpr ⟨h2, by simp [tripleOf]⟩
    have h4 := List.length_pos_of_mem h3
    omega
  · apply dedupSorted_canonical
    · intro t ht u hu hid
      rw [List.mem_append] at ht hu
      have ht' : t ∈ read_account_transactions a := by
        rcases ht with h | h
        · exact h
        · exact subAccounts_read_subset a d hd t h
      have hu' : u ∈ read_account_transactions a := by
        rcases hu with h | h
        · exact h
        · exact subAccounts_read_subset a d hd u h
      exact hinj t ht' u hu' hid
    · intro t
      rw [List.mem_append]
      constructor
      · intro h
        rcases h with h | h
        · exact h
        · exact subAccounts_read_subset a d hd t h
      · exact Or.inl

theorem dedup_each_split_once_witness :
    (leafAcc ∈ subAccounts rootAcc)
    ∧ (∃ t ∈ readChildren [rootAcc, leafAcc], t.2.2 = wSplitA)
    ∧ (((dedupSorted (readChildren [rootAcc, leafAcc])).filter
          fun t => t.2.2 == wSplitA).length ≤ 1
      ∧ ((∃ t ∈ readChildren [rootAcc, leafAcc], t.2.2 = wSplitA) →
          ((dedupSorted (readChildren [rootAcc, leafAcc])).filter
            fun t => t.2.2 == wSplitA).length = 1)
      ∧ dedupSorted (read_account_transactions rootAcc ++
            read_account_transactions leafAcc)
          = dedupSorted (read_account_transactions rootAcc)) :=
  ⟨List.Mem.tail _ (List.Mem.head _),
   ⟨tripleOf wSplitA, by decide⟩,
   dedup_each_split_once [rootAcc, leafAcc] wSplitA rootAcc leafAcc
     (List.Mem.tail _ (List.Mem.head _)) (by decide)⟩

end Expenses
